import Mathlib

/-!
Verification development for the skyflo agent engine.

The definitions below are shallow embeddings of the Python source:

* `src/engine/src/api/services/stop_service.py` — the stop registry,
* `src/engine/src/api/endpoints/agent.py` — event publishing, the SSE
  generator, `run_agent_workflow` and the approval controller,
* `src/engine/src/api/utils/helpers.py` — token counting and the sliding
  window,
* `src/engine/src/api/utils/sanitization.py` — message sanitization,
* `src/engine/src/api/services/mcp_client.py` — the MCP tool client,
* `src/mcp/src/mcp_server/utils/retry.py` — the server-side retry wrapper.

Python dicts are embedded as association lists with first-match lookup,
the external key-value store as a function from keys to optional string
values, and fallible I/O as `Except`-valued inputs.  Real-time waits
(the 60 s SSE poll timeout) are modelled as oracle inputs: the embedding
receives the sequence of poll outcomes instead of a clock.
-/

/-! ## Stop registry (`stop_service.py`) -/

/-- The external key-value store: keys to optionally present string values. -/
def Store : Type := String → Option String

/-- Embeds `_stop_key`: the store key used for a run's stop flag. -/
def stop_key (run_id : String) : String := "agent:stop:" ++ run_id

/-- Embeds a successful `request_stop`: sets the flag value to "1"
(the TTL is not modelled; expiry only removes flags, which can only make
stops less likely). -/
def request_stop (st : Store) (run_id : String) : Store :=
  fun k => if k = stop_key run_id then some "1" else st k

/-- Embeds a successful `clear_stop`: deletes the flag key. -/
def clear_stop (st : Store) (run_id : String) : Store :=
  fun k => if k = stop_key run_id then none else st k

/-- A read from the store: either an infrastructure error or the stored
value (which may be absent). -/
def StoreRead : Type := String → Except Unit (Option String)

/-- Embeds `should_stop`: `None`/empty run ids are falsy and yield `false`;
a read error yields `false` (fail-open); otherwise the result is the
comparison `value == "1"`. -/
def should_stop (run_id : Option String) (read : StoreRead) : Bool :=
  match run_id with
  | none => false
  | some rid =>
    if rid = "" then false
    else
      match read (stop_key rid) with
      | .error _ => false
      | .ok v => v = some "1"

/-- A fault-free read over a concrete store state. -/
def readOf (st : Store) : StoreRead := fun k => .ok (st k)

/-! ## The orchestrator's clear-then-loop shape (`run_agent_workflow`)

`run_agent_workflow` (src/engine/src/api/endpoints/agent.py, lines
240-245) first runs `if run_id: await clear_stop(run_id)` and only then
builds the graph and enters the loop.  The loop body itself
(`build_graph`) polls the flag through `check_stop`
(src/engine/src/api/agent/stop.py) at iteration boundaries; the loop is
modelled as a sequence of boundaries, each receiving the stop requests
issued since the previous boundary and a flag telling whether the read
at that boundary fails. -/

/-- One iteration boundary of the loop: the stop requests that arrived
before it and whether the flag read at it hits an infrastructure error. -/
structure Boundary where
  reqs : List String
  fault : Bool
deriving DecidableEq, Repr

/-- The flag observation made at one boundary, through `should_stop`. -/
def boundary_observes (st : Store) (b : Boundary) (run_id : String) : Bool :=
  should_stop (some run_id) (fun k => if b.fault then .error () else .ok (st k))

/-- Modelled from the spec: the loop body (`build_graph` and the graph
modules it assembles) is not under `src/`; per §4.2/§4.6.2 the loop
consults `should_stop` at each iteration boundary (as `check_stop` in
src/engine/src/api/agent/stop.py does).  At each boundary, apply the
incoming stop requests to the store, then poll the flag; a `true` poll
stops the run. -/
def loop_stops (st : Store) (run_id : String) : List Boundary → Bool
  | [] => false
  | b :: rest =>
    let st1 := b.reqs.foldl request_stop st
    if boundary_observes st1 b run_id then true else loop_stops st1 run_id rest

/-- Embeds the stop-related behavior of `run_agent_workflow`: the flag
for `run_id` is cleared first (guarded by `if run_id:`, so an empty id
skips the clear), and only then does the loop begin polling. -/
def run_agent_workflow_stops (run_id : String) (st : Store) (bs : List Boundary) : Bool :=
  let st0 := if run_id = "" then st else clear_stop st run_id
  loop_stops st0 run_id bs

theorem stop_key_inj {a b : String} (h : stop_key a = stop_key b) : a = b := by
  have hd : (stop_key a).data = (stop_key b).data := congrArg String.data h
  simp only [stop_key, String.data_append] at hd
  have := List.append_cancel_left hd
  cases a; cases b; exact congrArg String.mk this

theorem request_stop_other (st : Store) (r run_id : String) (h : r ≠ run_id) :
    request_stop st r (stop_key run_id) = st (stop_key run_id) := by
  unfold request_stop
  have : stop_key run_id ≠ stop_key r := fun hc => h (stop_key_inj hc).symm
  simp [this]

theorem foldl_request_stop_other (rs : List String) (st : Store) (run_id : String)
    (h : run_id ∉ rs) :
    (rs.foldl request_stop st) (stop_key run_id) = st (stop_key run_id) := by
  induction rs generalizing st with
  | nil => rfl
  | cons r rest ih =>
    have hr : r ≠ run_id := fun hc => h (by simp [hc])
    have hrest : run_id ∉ rest := fun hc => h (by simp [hc])
    calc (rest.foldl request_stop (request_stop st r)) (stop_key run_id)
        = (request_stop st r) (stop_key run_id) := ih _ hrest
      _ = st (stop_key run_id) := request_stop_other st r run_id hr

theorem loop_stops_eq_false (st : Store) (run_id : String) (bs : List Boundary)
    (hrid : run_id ≠ "") (hflag : st (stop_key run_id) = none)
    (hreqs : ∀ b ∈ bs, run_id ∉ b.reqs) :
    loop_stops st run_id bs = false := by
  induction bs generalizing st with
  | nil => rfl
  | cons b rest ih =>
    have hb : run_id ∉ b.reqs := hreqs b (by simp)
    have hflag1 : (b.reqs.foldl request_stop st) (stop_key run_id) = none := by
      rw [foldl_request_stop_other b.reqs st run_id hb]; exact hflag
    have hobs : boundary_observes (b.reqs.foldl request_stop st) b run_id = false := by
      unfold boundary_observes should_stop
      cases hf : b.fault <;> simp [hrid, hf, hflag1]
    simp only [loop_stops]
    rw [hobs]
    simp only [Bool.false_eq_true, if_false]
    exact ih _ hflag1 (fun b hbmem => hreqs b (by simp [hbmem]))

/-- C3: at the start of every run of the agent workflow — the single
entry `run_agent_workflow`, spawned both by `/chat` and by the approval
resume — the stop flag for the run's id is cleared before the loop
begins, so whatever stop flags the store held beforehand (in particular
one requested during a prior run), the new run never observes a stop
unless a stop for its own id is requested during the run itself. -/
theorem run_clears_stop_flag_before_loop (run_id : String) (st : Store)
    (bs : List Boundary) (hrid : run_id ≠ "")
    (hreqs : ∀ b ∈ bs, run_id ∉ b.reqs) :
    run_agent_workflow_stops run_id st bs = false := by
  unfold run_agent_workflow_stops
  simp only [hrid, if_neg, if_false]
  have hclr : (clear_stop st run_id) (stop_key run_id) = none := by
    unfold clear_stop; simp
  simpa [hrid] using loop_stops_eq_false (clear_stop st run_id) run_id bs hrid hclr hreqs

/-- Witness for C3: a store in which the run's own flag is still set (a
lingering stop) does not stop a fresh run that clears it first. -/
theorem run_clears_stop_flag_before_loop_witness :
    run_agent_workflow_stops "r1"
      (fun k => if k = stop_key "r1" then some "1" else none)
      [⟨[], false⟩, ⟨["r2"], true⟩] = false := by
  apply run_clears_stop_flag_before_loop
  · decide
  · intro b hb
    fin_cases hb <;> decide

/-! ## JSON-shaped values

Payloads, tool arguments and tool-server responses are Python dicts and
lists; they are embedded as the following value type, with dicts as
association lists looked up at the first matching key. -/

/-- A JSON-shaped Python value. -/
inductive JVal where
  | str (s : String)
  | num (n : Int)
  | boolean (b : Bool)
  | null
  | dict (fields : List (String × JVal))
  | arr (items : List JVal)

/-- First-match lookup in an embedded dict. -/
def lookupJ (fields : List (String × JVal)) (k : String) : Option JVal :=
  match fields with
  | [] => none
  | (k0, v0) :: rest => if k0 = k then some v0 else lookupJ rest k

/-- Key-presence test in an embedded dict. -/
def hasKeyJ (fields : List (String × JVal)) (k : String) : Bool :=
  (lookupJ fields k).isSome

/-- Embeds Python dict assignment `d[k] = v`: replaces the value in place
when the key exists, appends the pair otherwise. -/
def setKeyJ : List (String × JVal) → String → JVal → List (String × JVal)
  | [], k, v => [(k, v)]
  | (k0, v0) :: rest, k, v =>
    if k0 = k then (k, v) :: rest else (k0, v0) :: setKeyJ rest k v

/-- Key lookup on a value that may or may not be a dict. -/
def jvalGet (v : JVal) (k : String) : Option JVal :=
  match v with
  | .dict fields => lookupJ fields k
  | _ => none

/-- Embeds Python `for x in v` for the values our payloads can hold:
lists iterate their items, dicts their keys, strings their characters;
iterating anything else raises `TypeError` (`none`). -/
def pyIter : JVal → Option (List JVal)
  | .arr items => some items
  | .dict fields => some (fields.map (fun kv => JVal.str kv.1))
  | .str s => some (s.data.map (fun c => JVal.str (String.mk [c])))
  | _ => none

/-! ## Event redaction (`publish_event`, `strip_integration_meta_keys`) -/

/-- Tests whether a key name begins with an underscore (defined by
structural recursion on the character data so that it evaluates by
`rfl`). -/
def startsWithUnderscore (k : String) : Bool :=
  match k.data with
  | [] => false
  | c :: _ => c = '_'

/-- Modelled from the spec: the module `integrations/jenkins/jenkins.py`
that defines `strip_jenkins_metadata_tool_args` is not under `src/`
(only the package `__init__.py` re-exporting it is), so the function is
taken at the spec's words (§4.3): from a tool-argument object it strips
every key whose name begins with an underscore or appears in the
configured integration-metadata list `metaKeys`; non-dict values pass
through unchanged. -/
def strip_jenkins_metadata_tool_args (metaKeys : List String) : JVal → JVal
  | .dict fields =>
    .dict (fields.filter (fun kv => !(startsWithUnderscore kv.1 || metaKeys.contains kv.1)))
  | v => v

/-- Embeds `strip_integration_meta_keys` (agent.py lines 45-56): non-dict
payloads are returned as-is; for dict payloads a copy is taken, its
`args` entry (when present) is replaced by its stripped form, and its
`tools` entry (when present) by the list comprehension mapping the strip
over its iteration; `none` models the `TypeError` a non-iterable `tools`
value would raise. -/
def strip_integration_meta_keys (metaKeys : List String) (payload : JVal) : Option JVal :=
  match payload with
  | .dict fields =>
    let s1 := if hasKeyJ fields "args" then
        setKeyJ fields "args"
          (strip_jenkins_metadata_tool_args metaKeys ((lookupJ fields "args").getD (.dict [])))
      else fields
    if hasKeyJ s1 "tools" then
      match pyIter ((lookupJ s1 "tools").getD (.arr [])) with
      | some items =>
        some (.dict (setKeyJ s1 "tools"
          (.arr (items.map (strip_jenkins_metadata_tool_args metaKeys)))))
      | none => none
    else some (.dict s1)
  | v => some v

/-- A frame published on a run channel, before SSE wire framing. -/
structure PublishedFrame where
  event : String
  payload : JVal

/-- Embeds `publish_event` (agent.py lines 59-65): sanitize, then publish
the frame; an exception inside the `try` (here: the sanitizer raising)
is caught and logged, publishing nothing. -/
def publish_event (metaKeys : List String) (event : String) (payload : JVal) :
    Option PublishedFrame :=
  match strip_integration_meta_keys metaKeys payload with
  | some sanitized => some ⟨event, sanitized⟩
  | none => none

/-- Key-presence on a frame payload, for stating redaction facts. -/
def frameHasKey (f : Option PublishedFrame) (k : String) : Bool :=
  match f with
  | some fr =>
    match fr.payload with
    | .dict fields => hasKeyJ fields k
    | _ => false
  | none => false

theorem lookupJ_setKeyJ_self (fields : List (String × JVal)) (k : String) (v : JVal) :
    lookupJ (setKeyJ fields k v) k = some v := by
  induction fields with
  | nil => simp [setKeyJ, lookupJ]
  | cons kv rest ih =>
    obtain ⟨k0, v0⟩ := kv
    by_cases h : k0 = k
    · simp [setKeyJ, lookupJ, h]
    · simp [setKeyJ, lookupJ, h, ih]

theorem lookupJ_setKeyJ_ne (fields : List (String × JVal)) (k k' : String) (v : JVal)
    (h : k' ≠ k) : lookupJ (setKeyJ fields k v) k' = lookupJ fields k' := by
  have h2 : ¬(k = k') := fun hc => h hc.symm
  induction fields with
  | nil => simp [setKeyJ, lookupJ, h2]
  | cons kv rest ih =>
    obtain ⟨k0, v0⟩ := kv
    by_cases h0 : k0 = k
    · subst h0
      simp [setKeyJ, lookupJ, h2]
    · simp [setKeyJ, lookupJ, h0, ih]

theorem strip_jenkins_dict_clean (metaKeys : List String) (v : JVal)
    (fields : List (String × JVal)) (k : String)
    (hv : strip_jenkins_metadata_tool_args metaKeys v = .dict fields)
    (hk : k ∈ fields.map Prod.fst) :
    startsWithUnderscore k = false ∧ k ∉ metaKeys := by
  match v with
  | .dict d =>
    simp only [strip_jenkins_metadata_tool_args, JVal.dict.injEq] at hv
    subst hv
    simp only [List.mem_map] at hk
    obtain ⟨kv, hkvmem, hfst⟩ := hk
    have hpred := (List.mem_filter.mp hkvmem).2
    subst hfst
    simp only [Bool.not_eq_true', Bool.or_eq_false_iff] at hpred
    exact ⟨hpred.1, by simpa using hpred.2⟩
  | .str s => simp [strip_jenkins_metadata_tool_args] at hv
  | .num n => simp [strip_jenkins_metadata_tool_args] at hv
  | .boolean b => simp [strip_jenkins_metadata_tool_args] at hv
  | .null => simp [strip_jenkins_metadata_tool_args] at hv
  | .arr items => simp [strip_jenkins_metadata_tool_args] at hv

/-- C1 (amended part): whatever payload is published, in the sanitized
payload every key at the top level of a dict-valued `args` field, and
every key at the top level of every dict element of a list-valued
`tools` field, neither begins with an underscore nor belongs to the
configured integration-metadata list. -/
theorem publish_event_strips_tool_arg_meta_keys (metaKeys : List String)
    (event : String) (payload : JVal) (fr : PublishedFrame)
    (h : publish_event metaKeys event payload = some fr) :
    (∀ afields k, jvalGet fr.payload "args" = some (.dict afields) →
        k ∈ afields.map Prod.fst → startsWithUnderscore k = false ∧ k ∉ metaKeys)
    ∧ (∀ items t tfields k, jvalGet fr.payload "tools" = some (.arr items) →
        t ∈ items → t = .dict tfields →
        k ∈ tfields.map Prod.fst → startsWithUnderscore k = false ∧ k ∉ metaKeys) := by
  unfold publish_event at h
  match hs : strip_integration_meta_keys metaKeys payload with
  | none => rw [hs] at h; exact absurd h (by simp)
  | some sanitized =>
    rw [hs] at h
    have hfr : fr = ⟨event, sanitized⟩ := by
      cases h; rfl
    subst hfr
    match payload with
    | .str s =>
      simp only [strip_integration_meta_keys, Option.some.injEq] at hs
      subst hs
      exact ⟨fun _ _ hl _ => absurd hl (by simp [jvalGet]),
             fun _ _ _ _ hl _ _ _ => absurd hl (by simp [jvalGet])⟩
    | .num n =>
      simp only [strip_integration_meta_keys, Option.some.injEq] at hs
      subst hs
      exact ⟨fun _ _ hl _ => absurd hl (by simp [jvalGet]),
             fun _ _ _ _ hl _ _ _ => absurd hl (by simp [jvalGet])⟩
    | .boolean b =>
      simp only [strip_integration_meta_keys, Option.some.injEq] at hs
      subst hs
      exact ⟨fun _ _ hl _ => absurd hl (by simp [jvalGet]),
             fun _ _ _ _ hl _ _ _ => absurd hl (by simp [jvalGet])⟩
    | .null =>
      simp only [strip_integration_meta_keys, Option.some.injEq] at hs
      subst hs
      exact ⟨fun _ _ hl _ => absurd hl (by simp [jvalGet]),
             fun _ _ _ _ hl _ _ _ => absurd hl (by simp [jvalGet])⟩
    | .arr items =>
      simp only [strip_integration_meta_keys, Option.some.injEq] at hs
      subst hs
      exact ⟨fun _ _ hl _ => absurd hl (by simp [jvalGet]),
             fun _ _ _ _ hl _ _ _ => absurd hl (by simp [jvalGet])⟩
    | .dict fields =>
      simp only [strip_integration_meta_keys] at hs
      set s1 := if hasKeyJ fields "args" then
          setKeyJ fields "args"
            (strip_jenkins_metadata_tool_args metaKeys ((lookupJ fields "args").getD (.dict [])))
        else fields with hs1
      have hargs1 : ∀ afields k, lookupJ s1 "args" = some (.dict afields) →
          k ∈ afields.map Prod.fst → startsWithUnderscore k = false ∧ k ∉ metaKeys := by
        intro afields k hlook hk
        rw [hs1] at hlook
        by_cases hhk : hasKeyJ fields "args"
        · rw [if_pos hhk, lookupJ_setKeyJ_self] at hlook
          exact strip_jenkins_dict_clean metaKeys _ afields k (by injection hlook) hk
        · rw [if_neg hhk] at hlook
          exact absurd hlook (by simp [hasKeyJ] at hhk; simp [hhk])
      by_cases ht : hasKeyJ s1 "tools"
      · rw [if_pos ht] at hs
        match hit : pyIter ((lookupJ s1 "tools").getD (.arr [])) with
        | none => rw [hit] at hs; exact absurd hs (by simp)
        | some items0 =>
          rw [hit] at hs
          have hsan : sanitized =
              .dict (setKeyJ s1 "tools"
                (.arr (items0.map (strip_jenkins_metadata_tool_args metaKeys)))) := by
            cases hs; rfl
          subst hsan
          constructor
          · intro afields k hlook hk
            simp only [jvalGet] at hlook
            rw [lookupJ_setKeyJ_ne _ _ _ _ (by decide)] at hlook
            exact hargs1 afields k hlook hk
          · intro items t tfields k hlook hmem hdict hk
            simp only [jvalGet, lookupJ_setKeyJ_self, Option.some.injEq, JVal.arr.injEq] at hlook
            subst hlook
            obtain ⟨u, _, hu⟩ := List.mem_map.mp hmem
            subst hdict
            exact strip_jenkins_dict_clean metaKeys u tfields k hu hk
      · rw [if_neg ht] at hs
        have hsan : sanitized = .dict s1 := by cases hs; rfl
        subst hsan
        constructor
        · intro afields k hlook hk
          exact hargs1 afields k hlook hk
        · intro items t tfields k hlook hmem hdict hk
          simp only [jvalGet] at hlook
          exact absurd (by simp [hasKeyJ, hlook] : hasKeyJ s1 "tools" = true) ht

/-- Witness for C1's amended theorem: a `tool.executing` payload whose
`args` object carries only clean keys after publishing. -/
theorem publish_event_strips_tool_arg_meta_keys_witness :
    (publish_event ["jenkins_token"] "tool.executing"
        (.dict [("call_id", .str "c1"),
                ("args", .dict [("_corr", .str "x"), ("jenkins_token", .str "t"),
                                ("namespace", .str "default")])]) =
      some ⟨"tool.executing",
        .dict [("call_id", .str "c1"),
               ("args", .dict [("namespace", .str "default")])]⟩)
    ∧ (startsWithUnderscore "namespace" = false ∧ "namespace" ∉ ["jenkins_token"]) := by
  constructor
  · rfl
  · exact (publish_event_strips_tool_arg_meta_keys ["jenkins_token"] "tool.executing"
      (.dict [("call_id", .str "c1"),
              ("args", .dict [("_corr", .str "x"), ("jenkins_token", .str "t"),
                              ("namespace", .str "default")])])
      ⟨"tool.executing",
        .dict [("call_id", .str "c1"),
               ("args", .dict [("namespace", .str "default")])]⟩
      (by rfl)).1 [("namespace", .str "default")] "namespace" (by rfl) (by simp)

/-- C1 (counterexample to the claim as stated): a key beginning with an
underscore at the TOP LEVEL of the event payload is not stripped — the
sanitizer only rewrites the `args` field and the elements of the `tools`
field — so the payload delivered to subscribers still contains `_internal`. -/
theorem publish_event_keeps_top_level_underscore_keys :
    frameHasKey (publish_event ["jenkins_token"] "tools.pending"
      (.dict [("_internal", .str "creds"), ("run_id", .str "r1")])) "_internal" = true := by
  rfl

/-- C4: `should_stop` returns `true` exactly when the run id is truthy
and the store read at key `agent:stop:<run_id>` succeeds with the value
"1"; every infrastructure error (and every other stored value, or an
absent flag) yields `false`. -/
theorem should_stop_fail_open (run_id : Option String) (read : StoreRead) :
    should_stop run_id read = true ↔
      ∃ rid, run_id = some rid ∧ rid ≠ "" ∧ read (stop_key rid) = .ok (some "1") := by
  constructor
  · intro h
    match hrid : run_id with
    | none => simp [should_stop, hrid] at h
    | some rid =>
      refine ⟨rid, rfl, ?_, ?_⟩
      · intro hc
        simp [should_stop, hc] at h
      · by_cases hc : rid = ""
        · simp [should_stop, hc] at h
        · match hr : read (stop_key rid) with
          | .error e => simp [should_stop, hc, hr] at h
          | .ok v =>
            simp only [should_stop, hc, if_neg, if_false, hr] at h
            simp only [decide_eq_true_eq] at h
            rw [h]
  · rintro ⟨rid, hrid, hne, hread⟩
    simp [should_stop, hrid, hne, hread]

/-! ## Approval controller (`decide_approval`, agent.py lines 409-480) -/

/-- Outcome of the conversation-loading block of `decide_approval`
(lines 430-436): `Conversation.get` may raise or return nothing, and
`check_conversation_authorization` may raise; every exception is
swallowed by the surrounding `except ... pass`, leaving the local
variables at whatever point they reached. -/
inductive ConvLoad where
  | ok        -- conversation found, authorization passed, persistence built
  | authFail  -- conversation found but authorization raised (swallowed)
  | notFound  -- `Conversation.get` returned nothing
  | getError  -- `Conversation.get` raised (swallowed)
deriving DecidableEq, Repr

/-- True when the `conversation` local ends up set. -/
def ConvLoad.loaded : ConvLoad → Bool
  | .ok => true
  | .authFail => true
  | _ => false

/-- True when the `persistence` local ends up set (it is assigned only
after the authorization check succeeds). -/
def ConvLoad.persisted : ConvLoad → Bool
  | .ok => true
  | _ => false

/-- The keyword arguments `decide_approval` passes to
`run_agent_workflow` for the resume run. -/
structure ResumeKwargs where
  run_id : String
  messages : List JVal
  conversation_id : Option String
  pending_tools : Option (List JVal)
  suppress_pending_event : Bool
  approval_decisions : Option (List (String × Bool))

/-- The externally visible actions `decide_approval` performs, in
order. -/
inductive ApprovalAction where
  | update_tool_segment (conversation_id call_id status : String) (result : Option JVal)
  | spawn_run (kw : ResumeKwargs)

/-- The fixed result blocks recorded for a denied tool call. -/
def denialResultBlocks : JVal :=
  .arr [.dict [("type", .str "text"), ("text", .str "Tool call was denied by the user")]]

/-- Embeds `decide_approval`: reject a missing (or empty, hence falsy)
`conversation_id` with HTTP 400; otherwise, when the decision is a
denial and both `persistence` and `conversation` are set, eagerly update
the tool segment to `denied` with the fixed result text, and in every
case spawn the resume run with `messages=[]`, `pending_tools=None`,
`suppress_pending_event=True` and `approval_decisions={call_id:
approve}`. -/
def decide_approval (call_id : String) (approve : Bool)
    (conversation_id : Option String) (load : ConvLoad) (new_run_id : String) :
    Except Nat (List ApprovalAction) :=
  match conversation_id with
  | none => .error 400
  | some cid =>
    if cid = "" then .error 400
    else
      let eager :=
        if !approve && (load.persisted && load.loaded) then
          [ApprovalAction.update_tool_segment cid call_id "denied" (some denialResultBlocks)]
        else []
      .ok (eager ++ [.spawn_run ⟨new_run_id, [], some cid, none, true, some [(call_id, approve)]⟩])

/-- C2: when the conversation loads and passes authorization, a denial
first records the `denied` status with the fixed result text and then
spawns the resume run carrying `approval_decisions = {call_id: false}`
and `suppress_pending_event = true`; an approval spawns the same resume
run with `approval_decisions = {call_id: true}` and performs no eager
update. -/
theorem decide_approval_eager_denial_then_resume (call_id cid new_run_id : String)
    (approve : Bool) (hcid : cid ≠ "") :
    decide_approval call_id approve (some cid) .ok new_run_id =
      .ok ((if approve then []
            else [ApprovalAction.update_tool_segment cid call_id "denied"
                    (some denialResultBlocks)]) ++
        [.spawn_run ⟨new_run_id, [], some cid, none, true, some [(call_id, approve)]⟩]) := by
  cases approve <;> simp [decide_approval, hcid, ConvLoad.persisted, ConvLoad.loaded]

/-- Witness for C2: the concrete denial of call `c1` on conversation
`conv1`. -/
theorem decide_approval_eager_denial_then_resume_witness :
    decide_approval "c1" false (some "conv1") .ok "r2" =
      .ok [ApprovalAction.update_tool_segment "conv1" "c1" "denied" (some denialResultBlocks),
           .spawn_run ⟨"r2", [], some "conv1", none, true, some [("c1", false)]⟩] := by
  have h := decide_approval_eager_denial_then_resume "c1" "conv1" "r2" false (by decide)
  simpa using h

/-! ## Token counting and the sliding window (`helpers.py`)

Messages are dicts with a `role`, an optional `content` (absent and
`None` count the same, zero tokens) and arbitrary further key/value
pairs.  The tokenizer is abstract: any function from strings to token
counts. -/

/-- A chat message as consumed by `count_message_tokens`. -/
structure PMsg where
  role : String
  content : Option String
  extra : List (String × String)
deriving DecidableEq, Repr

/-- Token contribution of one message's fields: `role` is skipped,
`content` contributes its encoding when not `None`, and every other
key/value pair contributes `enc key + enc value + tokens_per_name`. -/
def fieldTokens (enc : String → Nat) (m : PMsg) : Nat :=
  (match m.content with | none => 0 | some c => enc c)
    + m.extra.foldl (fun acc kv => acc + (enc kv.1 + enc kv.2 + 1)) 0

/-- Embeds `count_message_tokens`: `tokens_per_message = 3` per message,
the field tokens, and a final `+3` for the reply priming. -/
def count_message_tokens (enc : String → Nat) (messages : List PMsg) : Nat :=
  messages.foldl (fun acc m => acc + (3 + fieldTokens enc m)) 0 + 3

/-- The reverse-order accumulation loop of `apply_sliding_window`: the
input list is the user messages newest-first; accepted messages are
re-inserted at the front, and the first message that does not fit stops
the loop. -/
def windowLoop (enc : String → Nat) (available : Int) (cur : Int) : List PMsg → List PMsg
  | [] => []
  | m :: rest =>
    let t : Int := (count_message_tokens enc [m] : Int)
    if cur + t ≤ available then windowLoop enc available (cur + t) rest ++ [m]
    else []

/-- The leading system message of a message list, when present. -/
def systemPrefix : List PMsg → List PMsg
  | [] => []
  | m0 :: _ => if m0.role = "system" then [m0] else []

/-- The messages handed to the sliding loop (everything but a leading
system message). -/
def nonSystemPart : List PMsg → List PMsg
  | [] => []
  | m0 :: rest => if m0.role = "system" then rest else m0 :: rest

/-- Embeds `apply_sliding_window` (helpers.py lines 63-124): split off a
leading system message, window the rest newest-first against
`max_tokens - system_tokens` (a Python int, so possibly negative), put
the system message back, and — when nothing at all was kept — fall back
to the most recent message. -/
def apply_sliding_window (enc : String → Nat) (messages : List PMsg) (max_tokens : Int) :
    List PMsg :=
  match messages with
  | [] => []
  | m0 :: rest =>
    let sys : List PMsg := if m0.role = "system" then [m0] else []
    let users : List PMsg := if m0.role = "system" then rest else m0 :: rest
    let system_tokens : Int :=
      if m0.role = "system" then (count_message_tokens enc sys : Int) else 0
    let available : Int := max_tokens - system_tokens
    let result := windowLoop enc available 0 users.reverse
    let resultFull := sys ++ result
    if resultFull = [] then
      -- only reachable with `sys = []`, hence `users` nonempty
      match users.getLast? with
      | some lastu => [lastu]
      | none => []
    else resultFull

/-- A concrete stand-in tokenizer for closed evaluations. -/
def encLen (s : String) : Nat := s.length

theorem count_eq_sum (enc : String → Nat) (l : List PMsg) :
    count_message_tokens enc l = (l.map (fun m => 3 + fieldTokens enc m)).sum + 3 := by
  unfold count_message_tokens
  congr 1
  suffices h : ∀ a : Nat, l.foldl (fun acc m => acc + (3 + fieldTokens enc m)) a =
      a + (l.map (fun m => 3 + fieldTokens enc m)).sum by
    simpa using h 0
  induction l with
  | nil => intro a; simp
  | cons m rest ih => intro a; simp [List.foldl_cons, ih]; ring

theorem count_cons (enc : String → Nat) (m : PMsg) (l : List PMsg) :
    count_message_tokens enc (m :: l) = count_message_tokens enc l + (3 + fieldTokens enc m) := by
  simp [count_eq_sum]; ring

theorem count_nil (enc : String → Nat) : count_message_tokens enc [] = 3 := rfl

theorem count_one (enc : String → Nat) (m : PMsg) :
    count_message_tokens enc [m] = 6 + fieldTokens enc m := by
  simp [count_eq_sum]; omega

theorem sum_countOne_eq (enc : String → Nat) (r : List PMsg) :
    (r.map (fun m => (count_message_tokens enc [m] : Int))).sum =
      (count_message_tokens enc r : Int) + 3 * r.length - 3 := by
  induction r with
  | nil => simp [count_message_tokens]
  | cons m rest ih =>
    rw [List.map_cons, List.sum_cons, ih]
    simp only [count_one, count_cons, count_nil, List.length_cons]
    push_cast
    ring

theorem windowLoop_isSuffix (enc : String → Nat) (avail : Int) :
    ∀ (rl : List PMsg) (cur : Int), windowLoop enc avail cur rl <:+ rl.reverse := by
  intro rl
  induction rl with
  | nil => intro cur; simp [windowLoop]
  | cons m rest ih =>
    intro cur
    simp only [windowLoop, List.reverse_cons]
    by_cases h : cur + (count_message_tokens enc [m] : Int) ≤ avail
    · rw [if_pos h]
      obtain ⟨p, hp⟩ := ih (cur + (count_message_tokens enc [m] : Int))
      exact ⟨p, by rw [← List.append_assoc, hp]⟩
    · rw [if_neg h]
      exact ⟨rest.reverse ++ [m], by simp⟩

theorem windowLoop_sum_le (enc : String → Nat) (avail : Int) :
    ∀ (rl : List PMsg) (cur : Int),
      windowLoop enc avail cur rl = [] ∨
        ((windowLoop enc avail cur rl).map
            (fun m => (count_message_tokens enc [m] : Int))).sum + cur ≤ avail := by
  intro rl
  induction rl with
  | nil => intro cur; exact Or.inl rfl
  | cons m rest ih =>
    intro cur
    simp only [windowLoop]
    by_cases h : cur + (count_message_tokens enc [m] : Int) ≤ avail
    · rw [if_pos h]
      rcases ih (cur + (count_message_tokens enc [m] : Int)) with h0 | hb
      · right
        rw [h0]
        simp only [List.nil_append, List.map_cons, List.map_nil, List.sum_cons, List.sum_nil]
        omega
      · right
        simp only [List.map_append, List.sum_append, List.map_cons, List.map_nil,
          List.sum_cons, List.sum_nil]
        omega
    · rw [if_neg h]
      exact Or.inl rfl

theorem asw_nonsystem (enc : String → Nat) (m0 : PMsg) (rest : List PMsg)
    (max_tokens : Int) (hrole : ¬m0.role = "system") :
    apply_sliding_window enc (m0 :: rest) max_tokens =
      if windowLoop enc (max_tokens - 0) 0 (m0 :: rest).reverse = [] then
        [(m0 :: rest).getLast (by simp)]
      else windowLoop enc (max_tokens - 0) 0 (m0 :: rest).reverse := by
  have hlast : (m0 :: rest).getLast? = some ((m0 :: rest).getLast (by simp)) :=
    List.getLast?_eq_getLast _ _
  simp only [apply_sliding_window, hrole, if_false, List.nil_append, hlast]

theorem asw_system (enc : String → Nat) (m0 : PMsg) (rest : List PMsg)
    (max_tokens : Int) (hrole : m0.role = "system") :
    apply_sliding_window enc (m0 :: rest) max_tokens =
      m0 :: windowLoop enc (max_tokens - (count_message_tokens enc [m0] : Int)) 0
        rest.reverse := by
  simp [apply_sliding_window, hrole]

/-- Structure of the sliding-window output: the leading system message
(when present) followed by a contiguous suffix of the remaining
messages. -/
theorem apply_sliding_window_keeps_system_and_suffix (enc : String → Nat)
    (messages : List PMsg) (max_tokens : Int) :
    ∃ t, t <:+ nonSystemPart messages ∧
      apply_sliding_window enc messages max_tokens = systemPrefix messages ++ t := by
  match messages with
  | [] => exact ⟨[], List.nil_suffix, rfl⟩
  | m0 :: rest =>
    by_cases hrole : m0.role = "system"
    · refine ⟨windowLoop enc (max_tokens - (count_message_tokens enc [m0] : Int)) 0
        rest.reverse, ?_, ?_⟩
      · have := windowLoop_isSuffix enc
          (max_tokens - (count_message_tokens enc [m0] : Int)) rest.reverse 0
        simpa [nonSystemPart, hrole] using this
      · rw [asw_system enc m0 rest max_tokens hrole]
        simp [systemPrefix, hrole]
    · rw [asw_nonsystem enc m0 rest max_tokens hrole]
      by_cases hres : windowLoop enc (max_tokens - 0) 0 (m0 :: rest).reverse = []
      · refine ⟨[(m0 :: rest).getLast (by simp)], ?_, ?_⟩
        · exact ⟨(m0 :: rest).dropLast, by
            simp [nonSystemPart, hrole, List.dropLast_append_getLast]⟩
        · rw [if_pos hres]
          simp [systemPrefix, hrole]
      · refine ⟨windowLoop enc (max_tokens - 0) 0 (m0 :: rest).reverse, ?_, ?_⟩
        · have := windowLoop_isSuffix enc (max_tokens - 0) (m0 :: rest).reverse 0
          simpa [nonSystemPart, hrole] using this
        · rw [if_neg hres]
          simp [systemPrefix, hrole]

theorem apply_sliding_window_budget_aux (enc : String → Nat) (messages : List PMsg)
    (max_tokens : Int) (hne : messages ≠ [])
    (hsys : ∀ m, systemPrefix messages = [m] →
      (count_message_tokens enc [m] : Int) ≤ max_tokens)
    (hlast : systemPrefix messages = [] →
      ∀ m, (nonSystemPart messages).getLast? = some m →
        (count_message_tokens enc [m] : Int) ≤ max_tokens) :
    (count_message_tokens enc (apply_sliding_window enc messages max_tokens) : Int) ≤
      max_tokens := by
  match messages with
  | [] => exact absurd rfl hne
  | m0 :: rest =>
    by_cases hrole : m0.role = "system"
    · rw [asw_system enc m0 rest max_tokens hrole]
      have hm0 : (count_message_tokens enc [m0] : Int) ≤ max_tokens :=
        hsys m0 (by simp [systemPrefix, hrole])
      rcases windowLoop_sum_le enc (max_tokens - (count_message_tokens enc [m0] : Int))
          rest.reverse 0 with h0 | hb
      · rw [h0]
        simpa [count_one] using hm0
      · have e1 := sum_countOne_eq enc
          (windowLoop enc (max_tokens - (count_message_tokens enc [m0] : Int)) 0 rest.reverse)
        have e3 := count_cons enc m0
          (windowLoop enc (max_tokens - (count_message_tokens enc [m0] : Int)) 0 rest.reverse)
        have e4 := count_one enc m0
        omega
    · rw [asw_nonsystem enc m0 rest max_tokens hrole]
      by_cases hres : windowLoop enc (max_tokens - 0) 0 (m0 :: rest).reverse = []
      · rw [if_pos hres]
        exact hlast (by simp [systemPrefix, hrole]) _ (by
          simpa [nonSystemPart, hrole] using List.getLast?_eq_getLast (m0 :: rest) (by simp))
      · rw [if_neg hres]
        rcases windowLoop_sum_le enc (max_tokens - 0) (m0 :: rest).reverse 0 with h0 | hb
        · exact absurd h0 hres
        · have e1 := sum_countOne_eq enc
            (windowLoop enc (max_tokens - 0) 0 (m0 :: rest).reverse)
          have e2 : 1 ≤ (windowLoop enc (max_tokens - 0) 0 (m0 :: rest).reverse).length := by
            cases hw : windowLoop enc (max_tokens - 0) 0 (m0 :: rest).reverse with
            | nil => exact absurd hw hres
            | cons a l => simp
          omega

/-- C5 (amended): the sliding window keeps the leading system message
(when present) plus a contiguous suffix of the most recent remaining
messages; and the cumulative token count of the returned messages stays
within the budget PROVIDED the mandatory part fits — the system message
alone (when present), or else the most recent message — since in the
degenerate cases the function still returns that part even though it
exceeds the budget. -/
theorem apply_sliding_window_window_property (enc : String → Nat)
    (messages : List PMsg) (max_tokens : Int) :
    (∃ t, t <:+ nonSystemPart messages ∧
      apply_sliding_window enc messages max_tokens = systemPrefix messages ++ t)
    ∧ (messages ≠ [] →
       (∀ m, systemPrefix messages = [m] →
         (count_message_tokens enc [m] : Int) ≤ max_tokens) →
       (systemPrefix messages = [] →
         ∀ m, (nonSystemPart messages).getLast? = some m →
           (count_message_tokens enc [m] : Int) ≤ max_tokens) →
       (count_message_tokens enc (apply_sliding_window enc messages max_tokens) : Int) ≤
         max_tokens) :=
  ⟨apply_sliding_window_keeps_system_and_suffix enc messages max_tokens,
   fun hne hsys hlast =>
     apply_sliding_window_budget_aux enc messages max_tokens hne hsys hlast⟩

/-- Witness for C5's amended theorem at a concrete transcript: a system
message plus two user turns under a budget of 100. -/
theorem apply_sliding_window_window_property_witness :
    (∃ t, t <:+ nonSystemPart
        [⟨"system", some "sp", []⟩, ⟨"user", some "hello", []⟩, ⟨"user", some "again", []⟩] ∧
      apply_sliding_window encLen
          [⟨"system", some "sp", []⟩, ⟨"user", some "hello", []⟩, ⟨"user", some "again", []⟩]
          100 =
        systemPrefix
            [⟨"system", some "sp", []⟩, ⟨"user", some "hello", []⟩,
             ⟨"user", some "again", []⟩] ++ t)
    ∧ (count_message_tokens encLen
        (apply_sliding_window encLen
          [⟨"system", some "sp", []⟩, ⟨"user", some "hello", []⟩, ⟨"user", some "again", []⟩]
          100) : Int) ≤ 100 := by
  have h := apply_sliding_window_window_property encLen
    [⟨"system", some "sp", []⟩, ⟨"user", some "hello", []⟩, ⟨"user", some "again", []⟩] 100
  refine ⟨h.1, h.2 (by decide) ?_ ?_⟩
  · intro m hm
    have hm2 : m = ⟨"system", some "sp", []⟩ := by
      have hpre : systemPrefix
          [⟨"system", some "sp", []⟩, ⟨"user", some "hello", []⟩,
           ⟨"user", some "again", []⟩] = [⟨"system", some "sp", []⟩] := rfl
      rw [hpre] at hm
      injection hm with h1 _
      exact h1.symm
    rw [hm2]
    decide
  · intro hempty
    exact absurd hempty (by decide)

/-- C5 (counterexample to the claim as stated): with a single system
message of empty content and a budget of 0, the function returns the
system message, whose token count (6) exceeds the budget. -/
theorem apply_sliding_window_exceeds_budget :
    apply_sliding_window encLen [⟨"system", some "", []⟩] 0 = [⟨"system", some "", []⟩]
    ∧ ¬((count_message_tokens encLen [⟨"system", some "", []⟩] : Int) ≤ 0) := by
  exact ⟨rfl, by decide⟩

/-! ## Tool-call transport and retry (`mcp_client.py`, `retry.py`) -/

/-- A transport error surfaced by an attempt against the tool server. -/
inductive TErr where
  | timeout
  | other
deriving DecidableEq, Repr

/-- Errors surfaced by the retry wrapper: a re-raised timeout, an
uncaught non-timeout exception, or the degenerate `raise None` when the
attempt budget is zero. -/
inductive RErr where
  | timeout
  | other
  | noneRaised
deriving DecidableEq, Repr

/-- View of a transport error as a wrapper-level error. -/
def liftTErr : TErr → RErr
  | .timeout => .timeout
  | .other => .other

/-- Embeds the request phase of `MCPClient.call_tool` (mcp_client.py
lines 383-418 and the handlers at 451-481): the engine's tool client
issues exactly one HTTP POST; on an exception of any kind it emits error
events and re-raises — there is no retry loop.  `server n` is the
outcome the tool server would give the n-th attempt; the returned pair
is the surfaced result and the number of attempts made. -/
def call_tool_request (server : Nat → Except TErr JVal) : Except TErr JVal × Nat :=
  (server 0, 1)

/-- Embeds the backoff delay of `with_retry`:
`min(retry_base_delay * retry_exponential_base ** attempt, retry_max_delay)`
(the configured defaults 60, 2.0 and 300 are exact integers, so natural
numbers model them exactly). -/
def retryDelay (baseDelay expBase maxDelay attempt : Nat) : Nat :=
  min (baseDelay * expBase ^ attempt) maxDelay

/-- The loop of `with_retry` (src/mcp/src/mcp_server/utils/retry.py
lines 27-51): `remaining` counts the loop iterations left out of
`max_retry_attempts`.  Only `asyncio.TimeoutError` is caught and
retried, with a `retryDelay` sleep between attempts; any other exception
propagates at once; after the final attempt the last timeout is
re-raised (`RErr.noneRaised` models the `raise None` a zero-attempt
configuration would hit).  The result is paired with the list of sleep
delays performed. -/
def withRetryGo (server : Nat → Except TErr α) (baseDelay expBase maxDelay : Nat) :
    Nat → Nat → Except RErr α × List Nat
  | _, 0 => (.error .noneRaised, [])
  | attempt, remaining + 1 =>
    match server attempt with
    | .ok v => (.ok v, [])
    | .error .other => (.error .other, [])
    | .error .timeout =>
      if remaining = 0 then (.error .timeout, [])
      else
        let r := withRetryGo server baseDelay expBase maxDelay (attempt + 1) remaining
        (r.1, retryDelay baseDelay expBase maxDelay attempt :: r.2)

/-- Embeds `with_retry` applied to a server behavior, starting at
attempt 0 with the configured maximum number of attempts. -/
def with_retry (server : Nat → Except TErr α) (maxAttempts baseDelay expBase maxDelay : Nat) :
    Except RErr α × List Nat :=
  withRetryGo server baseDelay expBase maxDelay 0 maxAttempts

theorem withRetryGo_all_timeout (server : Nat → Except TErr JVal)
    (baseDelay expBase maxDelay : Nat) (hto : ∀ n, server n = .error .timeout) :
    ∀ remaining attempt, 1 ≤ remaining →
      withRetryGo server baseDelay expBase maxDelay attempt remaining =
        (.error .timeout,
          (List.range (remaining - 1)).map
            (fun i => retryDelay baseDelay expBase maxDelay (attempt + i))) := by
  intro remaining
  induction remaining with
  | zero => intro attempt h; exact absurd h (by decide)
  | succ r ih =>
    intro attempt _
    simp only [withRetryGo, hto attempt]
    match r with
    | 0 => simp
    | r0 + 1 =>
      rw [if_neg (by omega)]
      rw [ih (attempt + 1) (by omega)]
      simp only [Nat.add_sub_cancel, List.range_succ_eq_map, List.map_cons, List.map_map,
        Prod.mk.injEq, List.cons.injEq, Nat.add_zero, true_and]
      apply List.map_congr_left
      intro i _
      simp only [Function.comp_apply]
      congr 1
      omega

/-- C6 (amended): the engine's tool client performs no retry at all — a
transport failure is surfaced to the caller after exactly one attempt —
while bounded exponential backoff lives only in the MCP server's
`with_retry` wrapper, which retries only timeouts: under persistent
timeouts it makes exactly `maxAttempts` attempts, sleeping
`min(base * expBase^attempt, maxDelay)` between consecutive attempts,
and re-raises the timeout afterwards; a non-timeout error propagates
from the first attempt without any retry. -/
theorem tool_call_retry_semantics (server : Nat → Except TErr JVal)
    (maxAttempts baseDelay expBase maxDelay : Nat) :
    (call_tool_request server = (server 0, 1))
    ∧ ((∀ n, server n = .error .timeout) → 1 ≤ maxAttempts →
        with_retry server maxAttempts baseDelay expBase maxDelay =
          (.error .timeout,
            (List.range (maxAttempts - 1)).map (retryDelay baseDelay expBase maxDelay)))
    ∧ (1 ≤ maxAttempts → server 0 = .error .other →
        with_retry server maxAttempts baseDelay expBase maxDelay = (.error .other, [])) := by
  refine ⟨rfl, ?_, ?_⟩
  · intro hto hmax
    rw [with_retry, withRetryGo_all_timeout server baseDelay expBase maxDelay hto maxAttempts 0 hmax]
    simp
  · intro hmax hother
    match maxAttempts, hmax with
    | r + 1, _ =>
      simp only [with_retry, withRetryGo, hother]

/-- Witness for C6's amended theorem: under persistent timeouts and the
default configuration (3 attempts, base 60 s, exponent 2, cap 300 s) the
wrapper sleeps 60 s then 120 s and re-raises, while the engine client
surfaces the very first failure after one attempt; a connection-refused
style error is not retried even by the wrapper. -/
theorem tool_call_retry_semantics_witness :
    (call_tool_request (fun _ => .error .timeout) = (.error .timeout, 1))
    ∧ (with_retry (fun _ => (.error .timeout : Except TErr JVal)) 3 60 2 300 =
        (.error .timeout, [60, 120]))
    ∧ (with_retry (fun _ => (.error .other : Except TErr JVal)) 3 60 2 300 =
        (.error .other, [])) := by
  have h1 := tool_call_retry_semantics (fun _ => .error .timeout) 3 60 2 300
  have h2 := tool_call_retry_semantics (fun _ => .error .other) 3 60 2 300
  exact ⟨h1.1, (h1.2.1 (fun n => rfl) (by decide)).trans (by rfl),
    h2.2.2 (by decide) rfl⟩

/-- C6 (counterexample to the claim as stated): a tool invocation whose
first attempt hits a transport error that a single retry would have
recovered from — `MCPClient.call_tool` surfaces the error after one
attempt, although the configured retry bound (3) is not exhausted, as
the server-side wrapper run on the same behavior shows. -/
theorem call_tool_does_not_retry :
    (call_tool_request (fun n => if n = 0 then .error .timeout else .ok (.num 7)) =
      (.error .timeout, 1))
    ∧ ((with_retry (fun n => if n = 0 then .error .timeout else .ok (JVal.num 7))
          3 60 2 300).1 = .ok (.num 7)) := ⟨rfl, rfl⟩

/-! ## Action-based parameter inference in `call_tool` (`mcp_client.py` 283-298) -/

/-- Embeds the inference block of `MCPClient.call_tool`:
`inferred_parameters = parameters.copy()` and then, when a truthy
`action` accompanies the call, the tool is `get_resources` and
`resource_type` is not already present, the `if/elif` chain fills
`resource_type`.  The first component is the inferred dict, the second
is the caller's dict after the call — the source mutates only the copy,
so the embedding passes the caller's dict through. -/
def call_tool_infer (tool_name : String) (action : Option String)
    (parameters : List (String × JVal)) : List (String × JVal) × List (String × JVal) :=
  let inferred := parameters
  let inferred :=
    match action with
    | none => inferred
    | some a =>
      if a = "" then inferred
      else if tool_name = "get_resources" then
        if hasKeyJ inferred "resource_type" then inferred
        else if a = "get_pods" then setKeyJ inferred "resource_type" (.str "pod")
        else if a = "get_deployments" then setKeyJ inferred "resource_type" (.str "deployment")
        else if a = "get_services" then setKeyJ inferred "resource_type" (.str "service")
        else if a = "get_namespaces" then setKeyJ inferred "resource_type" (.str "namespace")
        else if a = "get_nodes" then setKeyJ inferred "resource_type" (.str "node")
        else inferred
      else inferred
  (inferred, parameters)

/-- The `action` to `resource_type` correspondence realized by the
`if/elif` chain. -/
def actionResourceType : String → Option String
  | "get_pods" => some "pod"
  | "get_deployments" => some "deployment"
  | "get_services" => some "service"
  | "get_namespaces" => some "namespace"
  | "get_nodes" => some "node"
  | _ => none

/-- C7: the caller's parameters dict is left unchanged by the call;
when `resource_type` is already set the inferred dict equals the input;
when it is not set, `resource_type` is filled exactly for the
`get_resources` tool according to the action table (and the dict is
otherwise untouched, `setKeyJ` only adding the one key). -/
theorem call_tool_infer_spec (tool_name : String) (action : Option String)
    (parameters : List (String × JVal)) :
    ((call_tool_infer tool_name action parameters).2 = parameters)
    ∧ (hasKeyJ parameters "resource_type" = true →
        (call_tool_infer tool_name action parameters).1 = parameters)
    ∧ (hasKeyJ parameters "resource_type" = false →
        (call_tool_infer tool_name action parameters).1 =
          if tool_name = "get_resources" then
            match action with
            | some a =>
              match actionResourceType a with
              | some rt => setKeyJ parameters "resource_type" (.str rt)
              | none => parameters
            | none => parameters
          else parameters) := by
  refine ⟨rfl, ?_, ?_⟩
  · intro h
    cases action with
    | none => rfl
    | some a =>
      simp only [call_tool_infer]
      by_cases ha : a = ""
      · simp [ha]
      · by_cases ht : tool_name = "get_resources"
        · simp [ha, ht, h]
        · simp [ha, ht]
  · intro h
    cases action with
    | none =>
      simp only [call_tool_infer]
      rw [ite_self]
    | some a =>
      simp only [call_tool_infer]
      by_cases ht : tool_name = "get_resources"
      · rw [if_pos ht]
        by_cases ha : a = ""
        · subst ha
          simp [h, ht, actionResourceType]
        · rw [if_neg ha]
          rw [h]
          by_cases h1 : a = "get_pods"
          · subst h1; simp [ht, actionResourceType]
          · by_cases h2 : a = "get_deployments"
            · subst h2; simp [ht, actionResourceType]
            · by_cases h3 : a = "get_services"
              · subst h3; simp [ht, actionResourceType]
              · by_cases h4 : a = "get_namespaces"
                · subst h4; simp [ht, actionResourceType]
                · by_cases h5 : a = "get_nodes"
                  · subst h5; simp [ht, actionResourceType]
                  · have hnone : actionResourceType a = none := by
                      unfold actionResourceType
                      split <;> simp_all
                    simp [h1, h2, h3, h4, h5, hnone, ht]
      · rw [if_neg ht, if_neg ht]
        rw [ite_self]

/-- Witness for C7: calling `get_resources` with `action="get_pods"` and
no `resource_type` fills `resource_type="pod"` on the copy and leaves
the caller's dict untouched. -/
theorem call_tool_infer_spec_witness :
    ((call_tool_infer "get_resources" (some "get_pods")
        [("namespace", .str "default")]).2 = [("namespace", .str "default")])
    ∧ ((call_tool_infer "get_resources" (some "get_pods")
        [("namespace", .str "default")]).1 =
      [("namespace", .str "default"), ("resource_type", .str "pod")]) := by
  have h := call_tool_infer_spec "get_resources" (some "get_pods")
    [("namespace", .str "default")]
  exact ⟨h.1, (h.2.2 rfl).trans rfl⟩

/-! ## SSE streaming transport (`create_sse_event_generator`, agent.py 68-116)

The generator's poll loop is a transition system over the sequence of
subscription outcomes: each turn either finds the client disconnected,
gets nothing usable from the subscription, receives a published frame,
or hits the 60-second `asyncio.wait_for` timeout (real time is
abstracted into the `timeout` oracle input).  Frames on the channel are
produced by `publish_event` through `sse_format`, whose `json.dumps`
escapes newlines, so the loop's split-and-parse recovers exactly the
published payload; frames are therefore modelled structurally. -/

/-- One poll outcome of the subscription loop. -/
inductive SubOutcome where
  | disconnected
  | nonMessage
  | message (event : String) (payload : List (String × JVal))
  | timeout

/-- A frame written to the HTTP response. -/
inductive SSEFrame where
  | ready (run_id : String)
  | forwarded (event : String) (payload : List (String × JVal))
  | heartbeat (timestamp : String)

/-- The terminal-status test of the loop:
`data.get("status") in ["completed", "error", "awaiting_approval", "stopped"]`. -/
def isTerminalStatus (payload : List (String × JVal)) : Bool :=
  match lookupJ payload "status" with
  | some (.str s) =>
    s = "completed" || s = "error" || s = "awaiting_approval" || s = "stopped"
  | _ => false

/-- The poll loop: a disconnect breaks without output; a timeout writes
a heartbeat carrying the current timestamp (`now i` at poll index `i`);
a received frame is forwarded and, when its payload's status is
terminal, the loop breaks immediately after forwarding it. -/
def sse_loop (now : Nat → String) : Nat → List SubOutcome → List SSEFrame
  | _, [] => []
  | i, o :: rest =>
    match o with
    | .disconnected => []
    | .nonMessage => sse_loop now (i + 1) rest
    | .timeout => .heartbeat (now i) :: sse_loop now (i + 1) rest
    | .message ev payload =>
      .forwarded ev payload ::
        (if isTerminalStatus payload then [] else sse_loop now (i + 1) rest)

/-- Embeds `create_sse_event_generator`: subscribe, spawn the workflow,
emit the initial `ready` frame, then run the poll loop. -/
def create_sse_event_generator (now : Nat → String) (run_id : String)
    (outcomes : List SubOutcome) : List SSEFrame :=
  .ready run_id :: sse_loop now 0 outcomes

/-- Checks that a frame sequence forwards nothing after the first
forwarded frame whose payload carries a terminal status. -/
def closedAfterTerminal : List SSEFrame → Bool
  | [] => true
  | .forwarded _ p :: rest =>
    if isTerminalStatus p then rest.isEmpty else closedAfterTerminal rest
  | _ :: rest => closedAfterTerminal rest

theorem closedAfterTerminal_sse_loop (now : Nat → String) :
    ∀ (outcomes : List SubOutcome) (i : Nat),
      closedAfterTerminal (sse_loop now i outcomes) = true := by
  intro outcomes
  induction outcomes with
  | nil => intro i; rfl
  | cons o rest ih =>
    intro i
    match o with
    | .disconnected => rfl
    | .nonMessage => exact ih (i + 1)
    | .timeout => simpa [sse_loop, closedAfterTerminal] using ih (i + 1)
    | .message ev payload =>
      by_cases hterm : isTerminalStatus payload
      · simp [sse_loop, closedAfterTerminal, hterm]
      · simpa [sse_loop, closedAfterTerminal, hterm] using ih (i + 1)

/-- C8: on the SSE stream, every poll that times out (the subscription
yielding nothing for more than 60 seconds) writes a heartbeat frame
carrying a timestamp, and once a frame whose payload carries a status in
{completed, error, awaiting_approval, stopped} is forwarded, the stream
closes: no frame whatsoever is written after it. -/
theorem sse_heartbeat_and_terminal_close (now : Nat → String) (run_id : String)
    (i : Nat) (rest outcomes : List SubOutcome) :
    (sse_loop now i (SubOutcome.timeout :: rest) =
      .heartbeat (now i) :: sse_loop now (i + 1) rest)
    ∧ closedAfterTerminal (create_sse_event_generator now run_id outcomes) = true := by
  refine ⟨rfl, ?_⟩
  show closedAfterTerminal (sse_loop now 0 outcomes) = true
  exact closedAfterTerminal_sse_loop now outcomes 0

/-! ## Tool catalog refresh (`MCPClient.get_tools`, mcp_client.py 154-227) -/

/-- First-match lookup in an association list with arbitrary values. -/
def lookupA {β : Type} (l : List (String × β)) (k : String) : Option β :=
  match l with
  | [] => none
  | (k0, v0) :: rest => if k0 = k then some v0 else lookupA rest k

/-- Python dict assignment for arbitrary value types. -/
def assocSet {β : Type} : List (String × β) → String → β → List (String × β)
  | [], k, v => [(k, v)]
  | (k0, v0) :: rest, k, v =>
    if k0 = k then (k, v) :: rest else (k0, v0) :: assocSet rest k v

/-- A parsed `ToolDefinition` (pydantic model, mcp_client.py 59-66):
`name`, `description`, `category` and `return_type` are required
strings and `parameters` a required list.  The per-parameter pydantic
validation is abstracted: any tool entry that fails to parse is skipped
by the source's inner `except ... continue`, and no theorem below
depends on which entries parse. -/
structure ToolDefinition where
  name : String
  description : String
  category : String
  parameters : List JVal
  return_type : String

/-- Coarse embedding of `ToolDefinition(**tool_data)`: requires a dict
carrying the five required fields with string/list shapes; anything
else raises, which the caller turns into a skip. -/
def parseToolDefinition (v : JVal) : Option ToolDefinition :=
  match v with
  | .dict fields =>
    match lookupJ fields "name", lookupJ fields "description", lookupJ fields "category",
        lookupJ fields "parameters", lookupJ fields "return_type" with
    | some (.str n), some (.str d), some (.str c), some (.arr ps), some (.str rt) =>
      some ⟨n, d, c, ps, rt⟩
    | _, _, _, _, _ => none
  | _ => none

/-- The mutable state of an `MCPClient` relevant to `get_tools`
(`tool_schemas` evolves in lockstep with `tool_definitions` and is not
modelled separately). -/
structure MCPClientState where
  tool_cache : List (String × JVal)
  last_cache_update : List (String × Nat)
  tool_definitions : List (String × ToolDefinition)

/-- Embeds `f"tools_{category or 'all'}"` (an empty category string is
falsy). -/
def cache_key (category : Option String) : String :=
  "tools_" ++ (match category with
    | none => "all"
    | some c => if c = "" then "all" else c)

/-- The cache-validity test: key present and updated less than
`cache_expiry = 300` seconds ago.  (Python subtracts floats; a clock
running backwards makes the difference negative, which like the
truncated natural subtraction still counts as fresh.) -/
def cacheFresh (st : MCPClientState) (ck : String) (now : Nat) : Bool :=
  (lookupA st.tool_cache ck).isSome &&
    (now - (lookupA st.last_cache_update ck).getD 0 < 300)

/-- The `{"tools": []}` value every failure path returns. -/
def emptyToolsResult : JVal := .dict [("tools", .arr [])]

/-- Embeds `get_tools`: serve a fresh cache entry; otherwise consult the
HTTP response (an `Except`: transport errors are the `error` case, which
the source catches and maps to `{"tools": []}`); reject non-dict
bodies, bodies without a `"tools"` key and non-list `"tools"` values
the same way, all BEFORE touching any state; only a well-shaped body
updates `tool_definitions` (per-entry parse failures skipped), the
cache, and the timestamp.  The embedding is total: no input raises. -/
def get_tools (st : MCPClientState) (category : Option String) (now : Nat)
    (response : Except Unit JVal) : JVal × MCPClientState :=
  let ck := cache_key category
  if cacheFresh st ck now then ((lookupA st.tool_cache ck).getD emptyToolsResult, st)
  else
    match response with
    | .error _ => (emptyToolsResult, st)
    | .ok tools_data =>
      match tools_data with
      | .dict fields =>
        match lookupJ fields "tools" with
        | none => (emptyToolsResult, st)
        | some tv =>
          match tv with
          | .arr tools =>
            let defs := tools.foldl (fun acc td =>
              match parseToolDefinition td with
              | some d => assocSet acc d.name d
              | none => acc) st.tool_definitions
            (tools_data,
             { tool_cache := assocSet st.tool_cache ck tools_data,
               last_cache_update := assocSet st.last_cache_update ck now,
               tool_definitions := defs })
          | _ => (emptyToolsResult, st)
      | _ => (emptyToolsResult, st)

/-- Recognizes the failure cases of a refresh: a transport error, a
non-dict body, a body without a `"tools"` key, or a non-list `"tools"`
value. -/
def failureResponse : Except Unit JVal → Bool
  | .error _ => true
  | .ok (.dict fields) =>
    match lookupJ fields "tools" with
    | none => true
    | some (.arr _) => false
    | some _ => true
  | .ok _ => true

/-- C9: whenever the cache is stale and the refresh fails — by transport
error, non-dict body, missing `"tools"` key or non-list `"tools"` value
— `get_tools` returns `{"tools": []}` instead of raising, and the whole
client state (tool cache, refresh timestamps and cached tool
definitions) is left exactly unchanged. -/
theorem get_tools_failure_returns_empty_and_preserves_state (st : MCPClientState)
    (category : Option String) (now : Nat) (response : Except Unit JVal)
    (hstale : cacheFresh st (cache_key category) now = false)
    (hfail : failureResponse response = true) :
    get_tools st category now response = (emptyToolsResult, st) := by
  unfold get_tools
  simp only [hstale, Bool.false_eq_true, if_false]
  split
  · rfl
  · split
    · split
      · rfl
      · split
        · exfalso; simp_all [failureResponse]
        · rfl
    · rfl

/-- Witness for C9: a stale (empty) client hitting a transport error
gets `{"tools": []}` back with its state intact. -/
theorem get_tools_failure_witness :
    get_tools ⟨[], [], []⟩ none 0 (.error ()) = (emptyToolsResult, ⟨[], [], []⟩) := by
  exact get_tools_failure_returns_empty_and_preserves_state ⟨[], [], []⟩ none 0 (.error ())
    (by rfl) (by rfl)

/-! ## Message sanitization (`sanitize_messages_for_openai`, sanitization.py 71-130) -/

/-- An entry of an assistant message's `tool_calls` list: a dict with an
optional `id` (possibly the empty, falsy string), or a non-dict entry
(dropped by the source's filters). -/
inductive ToolCall where
  | tdict (id : Option String)
  | nonDict
deriving DecidableEq, Repr

/-- The value stored under a `tool_calls` key: a list, or some non-list
value, for which `isinstance(..., list)` fails. -/
inductive TCField where
  | tlist (tcs : List ToolCall)
  | nonList
deriving DecidableEq, Repr

/-- A chat message as consumed by `sanitize_messages_for_openai`.
`none` stands for an absent key (or, for `content`, also a `None`
value, which `msg.get` makes indistinguishable).  Messages are taken to
be dicts: a non-dict element would crash the source's look-ahead scan at
`messages[j].get("role")`. -/
structure SMsg where
  role : Option String
  content : Option String
  tool_calls : Option TCField
  tool_call_id : Option String
deriving DecidableEq, Repr

/-- The truthy ids of a `tool_calls` list:
`{tc.get("id") for tc in ... if isinstance(tc, dict) and tc.get("id")}`. -/
def truthyIds (tcs : List ToolCall) : List String :=
  tcs.filterMap (fun tc =>
    match tc with
    | .tdict (some i) => if i = "" then none else some i
    | _ => none)

/-- The look-ahead over the run of consecutive `role == "tool"` messages
directly following an assistant message, collecting the
`tool_call_id`s that belong to `expected`. -/
def scanToolRun (expected : List String) : List SMsg → List String
  | [] => []
  | m :: rest =>
    if m.role = some "tool" then
      (match m.tool_call_id with
       | some i => if expected.contains i then [i] else []
       | none => []) ++ scanToolRun expected rest
    else []

/-- The first pass (lines 75-94): every assistant message with a
list-valued `tool_calls` contributes the ids answered by its immediately
following tool messages. -/
def collectValidIds : List SMsg → List String
  | [] => []
  | m :: rest =>
    (if m.role = some "assistant" then
      match m.tool_calls with
      | some (.tlist tcs) => scanToolRun (truthyIds tcs) rest
      | _ => []
     else []) ++ collectValidIds rest

/-- Embeds `if content is None: msg = {**msg, "content": ""}`. -/
def fixContent (m : SMsg) : SMsg :=
  if m.content = none then { m with content := some "" } else m

/-- The filter building `valid_tool_calls`: keep dict entries whose id
is truthy and among the valid ids. -/
def assistantKeptIds (validIds : List String) (tcs : List ToolCall) : List ToolCall :=
  tcs.filter (fun tc =>
    match tc with
    | .tdict (some i) => if i = "" then false else validIds.contains i
    | _ => false)

/-- One iteration of the second pass over a single message, on the
content-fixed message: returns the messages emitted (one or none) and
the updated `seen_tool_call_ids`.  An assistant message with a
list-valued `tool_calls` keeps the valid calls (or drops the key when
none survive) and extends `seen` with the kept ids; a tool message is
kept only when its `tool_call_id` is truthy and already seen; everything
else passes through. -/
def sanitizeStep (validIds seen : List String) (m : SMsg) : List SMsg × List String :=
  if (fixContent m).role = some "assistant" then
    match (fixContent m).tool_calls with
    | some (.tlist tcs) =>
      if assistantKeptIds validIds tcs = [] then
        ([{ fixContent m with tool_calls := none }],
         seen ++ truthyIds (assistantKeptIds validIds tcs))
      else
        ([{ fixContent m with tool_calls := some (.tlist (assistantKeptIds validIds tcs)) }],
         seen ++ truthyIds (assistantKeptIds validIds tcs))
    | _ => ([fixContent m], seen)
  else if (fixContent m).role = some "tool" then
    match (fixContent m).tool_call_id with
    | some i =>
      if i = "" then ([], seen)
      else if seen.contains i then ([fixContent m], seen) else ([], seen)
    | none => ([], seen)
  else ([fixContent m], seen)

/-- The second pass (lines 96-130), threading `seen_tool_call_ids`. -/
def sanitizePass (validIds : List String) : List SMsg → List String → List SMsg
  | [], _ => []
  | m :: rest, seen =>
    (sanitizeStep validIds seen m).1 ++
      sanitizePass validIds rest (sanitizeStep validIds seen m).2

/-- Embeds `sanitize_messages_for_openai`. -/
def sanitize_messages_for_openai (messages : List SMsg) : List SMsg :=
  sanitizePass (collectValidIds messages) messages []

/-- The well-formedness the claim asserts of assistant messages: a
retained assistant message has a non-empty `tool_calls` list or no
`tool_calls` key at all. -/
def assistantToolCallsWellFormed (msgs : List SMsg) : Bool :=
  msgs.all (fun m =>
    match m.role, m.tool_calls with
    | some r, some tc =>
      if r = "assistant" then
        match tc with
        | .tlist tcs => !tcs.isEmpty
        | .nonList => false
      else true
    | _, _ => true)

/-- C10 (counterexample to the claim as stated): an assistant message
whose `tool_calls` value is not a list (e.g. `None` or a string) fails
the `isinstance(..., list)` guard and is retained with the key intact,
so the output keeps an assistant message whose `tool_calls` is neither
absent nor a non-empty list. -/
theorem sanitize_keeps_non_list_tool_calls :
    sanitize_messages_for_openai [⟨some "assistant", some "x", some .nonList, none⟩] =
      [⟨some "assistant", some "x", some .nonList, none⟩]
    ∧ assistantToolCallsWellFormed
        (sanitize_messages_for_openai
          [⟨some "assistant", some "x", some .nonList, none⟩]) = false :=
  ⟨rfl, rfl⟩

theorem fixContent_content (m : SMsg) : (fixContent m).content ≠ none := by
  unfold fixContent
  by_cases h : m.content = none
  · simp [h]
  · simp [h]

theorem fixContent_role (m : SMsg) : (fixContent m).role = m.role := by
  unfold fixContent
  split <;> rfl

theorem sanitizeStep_mem_shape (validIds seen : List String) (m x : SMsg)
    (hx : x ∈ (sanitizeStep validIds seen m).1) :
    x.content ≠ none ∧
      (∀ tcs, x.tool_calls = some (.tlist tcs) →
        x.role = some "assistant" → tcs ≠ []) := by
  unfold sanitizeStep at hx
  by_cases hra : (fixContent m).role = some "assistant"
  · rw [if_pos hra] at hx
    match htc : (fixContent m).tool_calls with
    | some (.tlist tcs) =>
      simp only [htc] at hx
      by_cases hk : assistantKeptIds validIds tcs = []
      · rw [if_pos hk] at hx
        simp only [List.mem_singleton] at hx
        subst hx
        exact ⟨fixContent_content m, by intro tcs2 htcs; simp at htcs⟩
      · rw [if_neg hk] at hx
        simp only [List.mem_singleton] at hx
        subst hx
        refine ⟨fixContent_content m, ?_⟩
        intro tcs2 htcs _
        simp only [Option.some.injEq, TCField.tlist.injEq] at htcs
        rw [← htcs]
        exact hk
    | some .nonList =>
      simp only [htc] at hx
      simp only [List.mem_singleton] at hx
      subst hx
      exact ⟨fixContent_content m, by intro tcs2 htcs; rw [htc] at htcs; simp at htcs⟩
    | none =>
      simp only [htc] at hx
      simp only [List.mem_singleton] at hx
      subst hx
      exact ⟨fixContent_content m, by intro tcs2 htcs; rw [htc] at htcs; simp at htcs⟩
  · rw [if_neg hra] at hx
    by_cases hrt : (fixContent m).role = some "tool"
    · rw [if_pos hrt] at hx
      match hid : (fixContent m).tool_call_id with
      | some i =>
        simp only [hid] at hx
        by_cases hie : i = ""
        · rw [if_pos hie] at hx
          exact absurd hx (by simp)
        · rw [if_neg hie] at hx
          by_cases hmem : seen.contains i
          · rw [if_pos hmem] at hx
            simp only [List.mem_singleton] at hx
            subst hx
            exact ⟨fixContent_content m, fun _ _ hass => absurd hass hra⟩
          · rw [if_neg hmem] at hx
            exact absurd hx (by simp)
      | none =>
        simp only [hid] at hx
        exact absurd hx (by simp)
    · rw [if_neg hrt] at hx
      simp only [List.mem_singleton] at hx
      subst hx
      exact ⟨fixContent_content m, fun _ _ hass => absurd hass hra⟩

theorem sanitizePass_mem_shape (validIds : List String) :
    ∀ (msgs : List SMsg) (seen : List String) (x : SMsg),
      x ∈ sanitizePass validIds msgs seen →
        x.content ≠ none ∧
          (∀ tcs, x.tool_calls = some (.tlist tcs) →
            x.role = some "assistant" → tcs ≠ []) := by
  intro msgs
  induction msgs with
  | nil => intro seen x hx; exact absurd hx (by simp [sanitizePass])
  | cons m rest ih =>
    intro seen x hx
    simp only [sanitizePass, List.mem_append] at hx
    rcases hx with hx | hx
    · exact sanitizeStep_mem_shape validIds seen m x hx
    · exact ih _ x hx

/-- The truthy tool-call ids a retained assistant message exposes to
later tool messages (empty for any other message). -/
def assistIds (m : SMsg) : List String :=
  if m.role = some "assistant" then
    match m.tool_calls with
    | some (.tlist tcs) => truthyIds tcs
    | _ => []
  else []

/-- Every tool message in the list is answered by an id either already
in `seen` or exposed by an assistant message occurring earlier in the
list. -/
def toolLinkedFrom (seen : List String) : List SMsg → Prop
  | [] => True
  | m :: rest =>
    (m.role = some "tool" → ∃ i, m.tool_call_id = some i ∧ i ∈ seen) ∧
      toolLinkedFrom (seen ++ assistIds m) rest

theorem sanitizePass_linked (validIds : List String) :
    ∀ (msgs : List SMsg) (seen : List String),
      toolLinkedFrom seen (sanitizePass validIds msgs seen) := by
  intro msgs
  induction msgs with
  | nil => intro seen; exact trivial
  | cons m rest ih =>
    intro seen
    simp only [sanitizePass]
    by_cases hra : (fixContent m).role = some "assistant"
    · match htc : (fixContent m).tool_calls with
      | some (.tlist tcs) =>
        by_cases hk : assistantKeptIds validIds tcs = []
        · have hstep : sanitizeStep validIds seen m =
              ([{ fixContent m with tool_calls := none }], seen) := by
            simp [sanitizeStep, hra, htc, hk, truthyIds]
          rw [hstep]
          refine ⟨?_, ?_⟩
          · intro htool
            rw [show ({ fixContent m with tool_calls := none } : SMsg).role =
              (fixContent m).role from rfl, hra] at htool
            exact absurd htool (by decide)
          · have hax : assistIds { fixContent m with tool_calls := none } = [] := by
              simp [assistIds, hra]
            rw [hax, List.append_nil]
            exact ih seen
        · have hstep : sanitizeStep validIds seen m =
              ([{ fixContent m with
                    tool_calls := some (.tlist (assistantKeptIds validIds tcs)) }],
               seen ++ truthyIds (assistantKeptIds validIds tcs)) := by
            simp [sanitizeStep, hra, htc, hk]
          rw [hstep]
          refine ⟨?_, ?_⟩
          · intro htool
            rw [show ({ fixContent m with
                tool_calls := some (.tlist (assistantKeptIds validIds tcs)) } : SMsg).role =
              (fixContent m).role from rfl, hra] at htool
            exact absurd htool (by decide)
          · have hax : assistIds { fixContent m with
                tool_calls := some (.tlist (assistantKeptIds validIds tcs)) } =
                truthyIds (assistantKeptIds validIds tcs) := by
              simp [assistIds, hra]
            rw [hax]
            exact ih (seen ++ truthyIds (assistantKeptIds validIds tcs))
      | some .nonList =>
        have hstep : sanitizeStep validIds seen m = ([fixContent m], seen) := by
          simp [sanitizeStep, hra, htc]
        rw [hstep]
        refine ⟨?_, ?_⟩
        · intro htool
          rw [hra] at htool
          exact absurd htool (by decide)
        · have hax : assistIds (fixContent m) = [] := by simp [assistIds, hra, htc]
          rw [hax, List.append_nil]
          exact ih seen
      | none =>
        have hstep : sanitizeStep validIds seen m = ([fixContent m], seen) := by
          simp [sanitizeStep, hra, htc]
        rw [hstep]
        refine ⟨?_, ?_⟩
        · intro htool
          rw [hra] at htool
          exact absurd htool (by decide)
        · have hax : assistIds (fixContent m) = [] := by simp [assistIds, hra, htc]
          rw [hax, List.append_nil]
          exact ih seen
    · by_cases hrt : (fixContent m).role = some "tool"
      · match hid : (fixContent m).tool_call_id with
        | some i =>
          by_cases hie : i = ""
          · have hstep : sanitizeStep validIds seen m = ([], seen) := by
              simp [sanitizeStep, hra, hrt, hid, hie]
            rw [hstep]
            exact ih seen
          · by_cases hmem : seen.contains i
            · have hmem2 : i ∈ seen := List.mem_of_elem_eq_true hmem
              have hstep : sanitizeStep validIds seen m = ([fixContent m], seen) := by
                simp [sanitizeStep, hra, hrt, hid, hie, hmem2]
              rw [hstep]
              refine ⟨?_, ?_⟩
              · intro _
                exact ⟨i, hid, List.mem_of_elem_eq_true hmem⟩
              · have hax : assistIds (fixContent m) = [] := by simp [assistIds, hra]
                rw [hax, List.append_nil]
                exact ih seen
            · have hmem2 : ¬i ∈ seen := fun hc => hmem (List.elem_eq_true_of_mem hc)
              have hstep : sanitizeStep validIds seen m = ([], seen) := by
                simp [sanitizeStep, hra, hrt, hid, hie, hmem2]
              rw [hstep]
              exact ih seen
        | none =>
          have hstep : sanitizeStep validIds seen m = ([], seen) := by
            simp [sanitizeStep, hra, hrt, hid]
          rw [hstep]
          exact ih seen
      · have hstep : sanitizeStep validIds seen m = ([fixContent m], seen) := by
          simp [sanitizeStep, hra, hrt]
        rw [hstep]
        refine ⟨?_, ?_⟩
        · intro htool
          exact absurd htool hrt
        · have hax : assistIds (fixContent m) = [] := by simp [assistIds, hra]
          rw [hax, List.append_nil]
          exact ih seen

theorem toolLinkedFrom_decompose :
    ∀ (l : List SMsg) (seen : List String), toolLinkedFrom seen l →
      ∀ (pre : List SMsg) (tm : SMsg) (post : List SMsg),
        l = pre ++ tm :: post → tm.role = some "tool" →
        ∃ i, tm.tool_call_id = some i ∧ (i ∈ seen ∨ ∃ am ∈ pre, i ∈ assistIds am) := by
  intro l
  induction l with
  | nil =>
    intro seen _ pre tm post heq _
    exact absurd heq (by simp)
  | cons m rest ih =>
    intro seen hlink pre tm post heq htool
    cases pre with
    | nil =>
      simp only [List.nil_append] at heq
      injection heq with hm hrest
      subst hm
      obtain ⟨i, hi, hmem⟩ := hlink.1 htool
      exact ⟨i, hi, Or.inl hmem⟩
    | cons p pre2 =>
      simp only [List.cons_append] at heq
      injection heq with hm hrest
      subst hm
      obtain ⟨i, hi, hcase⟩ := ih (seen ++ assistIds m) hlink.2 pre2 tm post hrest htool
      refine ⟨i, hi, ?_⟩
      rcases hcase with hmem | ⟨am, ham, hiam⟩
      · rcases List.mem_append.mp hmem with h | h
        · exact Or.inl h
        · exact Or.inr ⟨m, by simp, h⟩
      · exact Or.inr ⟨am, by simp [ham], hiam⟩

theorem mem_assistIds (am : SMsg) (i : String) (h : i ∈ assistIds am) :
    am.role = some "assistant" ∧ ∃ tcs, am.tool_calls = some (.tlist tcs) ∧
      ∃ tc ∈ tcs, tc = .tdict (some i) := by
  unfold assistIds at h
  by_cases hrole : am.role = some "assistant"
  · rw [if_pos hrole] at h
    match htc : am.tool_calls with
    | some (.tlist tcs) =>
      simp only [htc] at h
      refine ⟨hrole, tcs, rfl, ?_⟩
      unfold truthyIds at h
      obtain ⟨tc, htcm, hf⟩ := List.mem_filterMap.mp h
      cases tc with
      | nonDict => simp at hf
      | tdict oid =>
        cases oid with
        | none => simp at hf
        | some j =>
          by_cases hj : j = ""
          · simp [hj] at hf
          · simp only [hj, if_false, Option.some.injEq] at hf
            exact ⟨.tdict (some j), htcm, by rw [hf]⟩
    | some .nonList =>
      simp only [htc] at h
      exact absurd h (by simp)
    | none =>
      simp only [htc] at h
      exact absurd h (by simp)
  · rw [if_neg hrole] at h
    exact absurd h (by simp)

/-- C10 (amended): in the output of `sanitize_messages_for_openai` no
message has a `None` content; every retained assistant message whose
`tool_calls` value IS A LIST has it non-empty (a non-list `tool_calls`
value fails the `isinstance` guard and is retained as-is, which is the
one correction to the claim); and every retained tool message's
`tool_call_id` is the id of a tool call carried by a retained assistant
message preceding it in the output. -/
theorem sanitize_messages_for_openai_spec (messages : List SMsg) :
    (∀ m ∈ sanitize_messages_for_openai messages, m.content ≠ none)
    ∧ (∀ m ∈ sanitize_messages_for_openai messages, ∀ tcs,
        m.tool_calls = some (.tlist tcs) → m.role = some "assistant" → tcs ≠ [])
    ∧ (∀ pre tm post, sanitize_messages_for_openai messages = pre ++ tm :: post →
        tm.role = some "tool" →
        ∃ i, tm.tool_call_id = some i ∧ ∃ am ∈ pre, am.role = some "assistant" ∧
          ∃ tcs, am.tool_calls = some (.tlist tcs) ∧ ∃ tc ∈ tcs, tc = .tdict (some i)) := by
  refine ⟨?_, ?_, ?_⟩
  · intro m hm
    exact (sanitizePass_mem_shape (collectValidIds messages) messages [] m hm).1
  · intro m hm tcs htcs hrole
    exact (sanitizePass_mem_shape (collectValidIds messages) messages [] m hm).2 tcs htcs hrole
  · intro pre tm post heq htool
    have hlink := sanitizePass_linked (collectValidIds messages) messages []
    obtain ⟨i, hi, hcase⟩ :=
      toolLinkedFrom_decompose (sanitize_messages_for_openai messages) [] hlink
        pre tm post heq htool
    rcases hcase with hmem | ⟨am, ham, hiam⟩
    · exact absurd hmem (by simp)
    · obtain ⟨hrole2, tcs, htcs, tc, htcm, htceq⟩ := mem_assistIds am i hiam
      exact ⟨i, hi, am, ham, hrole2, tcs, htcs, tc, htcm, htceq⟩

/-- Witness for C10's amended theorem on a concrete transcript: an
assistant tool call answered by a tool message, followed by a user
message with `None` content. -/
theorem sanitize_messages_for_openai_spec_witness :
    ((⟨some "user", some "", none, none⟩ : SMsg).content ≠ none)
    ∧ (∃ i, (⟨some "tool", some "r", none, some "a"⟩ : SMsg).tool_call_id = some i ∧
        ∃ am ∈ [(⟨some "assistant", some "", some (.tlist [.tdict (some "a")]),
              none⟩ : SMsg)],
          am.role = some "assistant" ∧ ∃ tcs, am.tool_calls = some (.tlist tcs) ∧
            ∃ tc ∈ tcs, tc = .tdict (some i)) := by
  have h := sanitize_messages_for_openai_spec
    [⟨some "assistant", some "", some (.tlist [.tdict (some "a")]), none⟩,
     ⟨some "tool", some "r", none, some "a"⟩,
     ⟨some "user", none, none, none⟩]
  constructor
  · exact h.1 ⟨some "user", some "", none, none⟩ (by decide)
  · exact h.2.2
      [⟨some "assistant", some "", some (.tlist [.tdict (some "a")]), none⟩]
      ⟨some "tool", some "r", none, some "a"⟩
      [⟨some "user", some "", none, none⟩] (by rfl) (by rfl)
